import Mathlib

/-!
Shallow embedding of the Judgify backend (a single Express server file) in
Lean 4, used to check the repository's natural-language specification.

Strings are modelled as `List Char` (JS strings; all inputs exercised here
are ASCII, so UTF-16 code-unit counts coincide with code-point counts).
JS numbers are modelled as `Rat`; IEEE-754 rounding is not modelled (every
concrete computation checked here is exact in double precision as well).
Platform builtins (fetch, cheerio, JSON.parse, the WHATWG URL resolver,
Number coercion) are modelled explicitly where their behaviour is needed,
as documented at each definition.
-/

namespace Judgify

/-! ### JS string primitives -/

/-- The backquote character, U+0060. -/
def tick : Char := Char.ofNat 96

/-- The characters treated as whitespace by the JS regex class \s and by
String.prototype.trim, restricted to the common ASCII set plus NBSP
(exotic Unicode space classes are not modelled; no input here uses them). -/
def isJsSpace (c : Char) : Bool :=
  c = ' ' || c = '\t' || c = '\n' || c = '\r' ||
  c = Char.ofNat 11 || c = Char.ofNat 12 || c = Char.ofNat 0xA0

/-- JS `s.trim()`: strip whitespace from both ends. -/
def jsTrim (s : List Char) : List Char :=
  ((s.dropWhile isJsSpace).reverse.dropWhile isJsSpace).reverse

/-- JS `a || b` on strings: the empty string is falsy. -/
def jsOrStr (a b : List Char) : List Char := if a.isEmpty then b else a

/-- JS `a || b` where each side is a string that may also be
undefined (`none`); undefined and the empty string are both falsy. -/
def jsOrOpt (a b : Option (List Char)) : Option (List Char) :=
  match a with
  | some s => if s.isEmpty then b else some s
  | none => b

/-- Case-sensitive substring test, JS `haystack.includes(pat)`. -/
def containsList (pat : List Char) : List Char → Bool
  | [] => pat.isEmpty
  | c :: cs => pat.isPrefixOf (c :: cs) || containsList pat cs

/-- Does `cs` start with `pat` compared case-insensitively?
`pat` is given in lower case. -/
def startsWithFold (pat cs : List Char) : Bool :=
  match pat, cs with
  | [], _ => true
  | _ :: _, [] => false
  | p :: ps, c :: rest => p = c.toLower && startsWithFold ps rest

/-- Case-insensitive substring test (`pat` in lower case): the semantics of
the JS regex test `/pat/i.test(cs)` for a literal pattern. -/
def containsFold (pat : List Char) : List Char → Bool
  | [] => startsWithFold pat []
  | c :: cs => startsWithFold pat (c :: cs) || containsFold pat cs

/-- JS `text.indexOf(t)` for a single character, `none` for -1. -/
def jsIndexOf (cs : List Char) (t : Char) : Option Nat :=
  match cs with
  | [] => none
  | c :: rest => if c = t then some 0 else (jsIndexOf rest t).map (· + 1)

/-- JS `text.lastIndexOf(t)` for a single character, `none` for -1. -/
def jsLastIndexOf (cs : List Char) (t : Char) : Option Nat :=
  match cs with
  | [] => none
  | c :: rest =>
    match jsLastIndexOf rest t with
    | some k => some (k + 1)
    | none => if c = t then some 0 else none

/-! ### extractJson (source lines 28-35)

JS source:
  function extractJson(text){
    const m = text.match(/```json\s*([\s\S]*?)```/i);
    if(m) return m[1];
    const a = text.indexOf("{");
    const b = text.lastIndexOf("}");
    if(a !== -1 && b !== -1) return text.slice(a, b+1);
    return text;
  }
The regex is embedded directly: a match starts at the earliest position
where the literal opener (three backquotes then "json", the letters
case-insensitive because of the /i flag) is followed, after a greedy run
of whitespace, by any text up to the nearest later occurrence of three
backquotes; the capture is that text. Backtracking of \s* cannot create
extra matches because a backquote is not a whitespace character. -/

/-- The text strictly before the first occurrence of three consecutive
backquotes, `none` when there is no such occurrence: the lazy
`([\s\S]*?)` capture up to the closing fence. -/
def splitAtTicks : List Char → Option (List Char)
  | c1 :: c2 :: c3 :: rest =>
    if c1 = tick && c2 = tick && c3 = tick then some []
    else (splitAtTicks (c2 :: c3 :: rest)).map (c1 :: ·)
  | _ => none

/-- Attempt the fence regex anchored at the start of `cs`. -/
def fenceAt (cs : List Char) : Option (List Char) :=
  match cs with
  | t1 :: t2 :: t3 :: c1 :: c2 :: c3 :: c4 :: rest =>
    if t1 = tick && t2 = tick && t3 = tick &&
       c1.toLower = 'j' && c2.toLower = 's' && c3.toLower = 'o' && c4.toLower = 'n' then
      splitAtTicks (rest.dropWhile isJsSpace)
    else none
  | _ => none

/-- The capture of the first (leftmost) match of the fence regex. -/
def findFence : List Char → Option (List Char)
  | [] => none
  | c :: cs =>
    match fenceAt (c :: cs) with
    | some inner => some inner
    | none => findFence cs

/-- `extractJson` from the source, selecting the candidate JSON substring
of a model reply. `text.slice(a, b+1)` is `(text.take (b+1)).drop a`
(JS slice returns the empty string when the start is at or past the end). -/
def extractJson (text : List Char) : List Char :=
  match findFence text with
  | some inner => inner
  | none =>
    match jsIndexOf text '{', jsLastIndexOf text '}' with
    | some a, some b => (text.take (b + 1)).drop a
    | _, _ => text

/-! ### JSON values and JS coercions

`Js` models the values JSON.parse can produce. JSON.parse itself is a
platform builtin; the flows below take it as an explicit parameter
`parse : List Char → Except (List Char) Js` (an exception carries its
message). Duplicate object keys never survive JSON.parse, so field lookup
takes the first binding. -/

inductive Js where
  | null
  | bool (b : Bool)
  | num (q : Rat)
  | str (s : List Char)
  | arr (elems : List Js)
  | obj (fields : List (List Char × Js))

/-- Field lookup in an object's binding list. -/
def lookupField (fields : List (List Char × Js)) (k : List Char) : Option Js :=
  match fields with
  | [] => none
  | (k', v) :: rest => if k' = k then some v else lookupField rest k

/-- JS property access `v.k`: `none` is JS undefined. Property access on a
primitive yields undefined; access on null/undefined would throw in JS,
which no flow modelled here reaches (every access below is behind either
JSON.parse output or optional chaining). -/
def getField (v : Js) (k : List Char) : Option Js :=
  match v with
  | Js.obj fs => lookupField fs k
  | _ => none

/-- The digits of `cs` read as a base-10 numeral (callers guard that all
characters are digits). -/
def decimalVal (cs : List Char) : Nat :=
  cs.foldl (fun n c => n * 10 + (c.toNat - 48)) 0

/-- An unsigned JS numeric literal: digits with an optional fraction part.
`none` is NaN. Exponents, hex and Infinity are not modelled (no input here
uses them). -/
def parseUnsigned (cs : List Char) : Option Rat :=
  let ip := cs.takeWhile Char.isDigit
  match cs.drop ip.length with
  | [] => if ip.isEmpty then none else some (decimalVal ip : Rat)
  | '.' :: frac =>
    if frac.all Char.isDigit && !(ip.isEmpty && frac.isEmpty) then
      some ((decimalVal ip : Rat) + (decimalVal frac : Rat) / (10 : Rat) ^ frac.length)
    else none
  | _ => none

/-- JS `Number(s)` on a string: trim, the empty string is 0, otherwise an
optionally signed numeral; `none` is NaN. -/
def strToNumber (s : List Char) : Option Rat :=
  match jsTrim s with
  | [] => some 0
  | '-' :: rest => (parseUnsigned rest).map (fun q => -q)
  | '+' :: rest => parseUnsigned rest
  | t => parseUnsigned t

/-- JS `Number(v)` on a JSON value; `none` is NaN. Arrays coerce through
their string form: `[]` is 0, `[x]` coerces as `x`, longer arrays are NaN;
objects are NaN. -/
def jsNum : Js → Option Rat
  | Js.null => some 0
  | Js.bool b => some (if b then 1 else 0)
  | Js.num q => some q
  | Js.str s => strToNumber s
  | Js.arr [] => some 0
  | Js.arr [x] => jsNum x
  | Js.arr _ => none
  | Js.obj _ => none

/-- JS `Number(v)` where `v` may be undefined (`Number(undefined)` is NaN). -/
def jsToNumber : Option Js → Option Rat
  | none => none
  | some v => jsNum v

/-- JS `Number(v) || 0`: NaN (and 0 itself) collapse to 0. -/
def numOr0 (v : Option Js) : Rat :=
  match jsToNumber v with
  | some q => q
  | none => 0

def weightKey : List Char := "weight".toList
def scoreKey : List Char := "score".toList
def itemsKey : List Char := "items".toList
def totalKey : List Char := "total".toList
def criteriaKey : List Char := "criteria".toList

/-- One item's contribution inside the reduce of source line 179:
`(Number(it.weight)||0)*(Number(it.score)||0)`. -/
def itemTerm (it : Js) : Rat :=
  numOr0 (getField it weightKey) * numOr0 (getField it scoreKey)

/-- `items.reduce((s,it)=> s + (Number(it.weight)||0)*(Number(it.score)||0), 0)`. -/
def sumItems (items : List Js) : Rat :=
  items.foldl (fun s it => s + itemTerm it) 0

/-- `Array.isArray(payload.items) ? payload.items : []` (source line 176). -/
def itemsOf (payload : Js) : List Js :=
  match getField payload itemsKey with
  | some (Js.arr xs) => xs
  | _ => []

/-- `Array.isArray(parsed.criteria) ? parsed.criteria : []` (source line 120). -/
def criteriaOf (parsed : Js) : List Js :=
  match getField parsed criteriaKey with
  | some (Js.arr xs) => xs
  | _ => []

/-- `typeof payload.total === "number" ? payload.total : 0` (source line 177). -/
def totalField (payload : Js) : Rat :=
  match getField payload totalKey with
  | some (Js.num q) => q
  | _ => 0

/-- Source lines 177-180: keep a truthy numeric total, otherwise recompute
it from the items. (NaN, the one other falsy number, cannot arise in the
`Rat` model; a NaN total would likewise be recomputed in JS.) -/
def computeTotal (payload : Js) : Rat :=
  if totalField payload = 0 then sumItems (itemsOf payload) else totalField payload

/-! ### geminiCall (source lines 36-56)

The outbound fetch is a platform effect; its delivered response is the
`GenResp` argument (status, the raw body text read in the error path, and
the body parsed as JSON as read in the success path). A transport-level
rejection of the fetch itself propagates as a JS exception before any of
the client's own checks and is modelled at the call sites (ProjEnv). -/

structure GenResp where
  ok : Bool
  status : Nat
  bodyText : List Char
  body : Js

/-- `a?.k` under optional chaining. -/
def optField (v : Option Js) (k : List Char) : Option Js :=
  match v with
  | some (Js.obj fs) => lookupField fs k
  | _ => none

/-- `a?.[0]` under optional chaining. -/
def optHead (v : Option Js) : Option Js :=
  match v with
  | some (Js.arr (x :: _)) => some x
  | _ => none

def candidatesKey : List Char := "candidates".toList
def contentKey : List Char := "content".toList
def partsKey : List Char := "parts".toList
def textKey : List Char := "text".toList

/-- `data?.candidates?.[0]?.content?.parts?.[0]?.text ?? ""` (source line
53). A non-string `text` payload is not modelled (JS would throw on the
subsequent `.trim()`); it is read as the empty string here. -/
def extractGeminiText (body : Js) : List Char :=
  let cand0 := optHead (optField (some body) candidatesKey)
  let part0 := optHead (optField (optField cand0 contentKey) partsKey)
  match optField part0 textKey with
  | some (Js.str s) => s
  | _ => []

def missingKeyMsg : List Char := "Missing GEMINI_API_KEY (set in backend .env)".toList
def emptyRespMsg : List Char := "Empty Gemini response".toList

/-- The message of the non-success branch: `Gemini error {status}: {body
truncated to 400 characters}` (source line 50). -/
def geminiErrMsg (status : Nat) (body : List Char) : List Char :=
  "Gemini error ".toList ++ (toString status).toList ++ ": ".toList ++ body.take 400

/-- `geminiCall` from the source. `envKey` models
`process.env.GEMINI_API_KEY`, `apiKey` the per-call override; both may be
absent or empty (both falsy in JS). -/
def geminiCall (envKey apiKey : Option (List Char)) (resp : GenResp) :
    Except (List Char) (List Char) :=
  match jsOrOpt apiKey envKey with
  | none => Except.error missingKeyMsg
  | some k =>
    if k.isEmpty then Except.error missingKeyMsg
    else if resp.ok = false then Except.error (geminiErrMsg resp.status resp.bodyText)
    else
      let text := jsTrim (extractGeminiText resp.body)
      if text.isEmpty then Except.error emptyRespMsg else Except.ok text

/-! ### Gallery link harvester (source lines 59-92)

Cheerio's anchor scan is a platform capability: a parsed page is modelled
as the list of its anchors, each with the `href` attribute (already
defaulted to "" as in `$(a).attr("href") || ""`) and its visible text. -/

structure Anchor where
  href : List Char
  text : List Char

structure Project where
  name : List Char
  url : List Char

def schemeHttp : List Char := "http://".toList
def schemeHttps : List Char := "https://".toList

/-- The origin (scheme plus host) of an http(s) URL. -/
def urlOrigin (base : List Char) : Option (List Char) :=
  if schemeHttps.isPrefixOf base then
    some (schemeHttps ++ (base.drop 8).takeWhile (fun c => c ≠ '/'))
  else if schemeHttp.isPrefixOf base then
    some (schemeHttp ++ (base.drop 7).takeWhile (fun c => c ≠ '/'))
  else none

/-- Model of the WHATWG resolver `new URL(href, base).toString()`,
restricted to the cases the harvester meets: an absolute http(s) `href` is
returned as is; a path-absolute `href` is attached to the base's origin;
everything else (relative path references, exotic schemes, non-http
bases) is treated as a resolution failure. Path case is preserved: the
resolver never changes the case of a URL path. -/
def resolveUrl (href base : List Char) : Option (List Char) :=
  if schemeHttp.isPrefixOf href || schemeHttps.isPrefixOf href then some href
  else
    match href with
    | '/' :: _ => (urlOrigin base).map (fun o => o ++ href)
    | _ => none

/-- `absoluteUrl` from the source: resolution failure falls back to the
raw href (the try/catch at source lines 25-27). -/
def absoluteUrl (href base : List Char) : List Char :=
  match resolveUrl href base with
  | some u => u
  | none => href

def projectPat : List Char := "/project/".toList
def softwarePat : List Char := "/software/".toList

/-- The regex test of source line 73: `/\/(project|software)\//i.test(href)`,
i.e. href contains "/project/" or "/software/" case-insensitively. -/
def hrefMatchesPat (href : List Char) : Bool :=
  containsFold projectPat href || containsFold softwarePat href

/-- The body of the anchor scan (source lines 69-80): the candidate pushed
for one anchor, if any. Note the inner guard on the resolved URL uses the
case-sensitive `includes`. -/
def anchorCandidate (base : List Char) (a : Anchor) : Option Project :=
  let name := jsTrim a.text
  if hrefMatchesPat a.href && decide (name.length > 2) then
    let urlAbs := absoluteUrl a.href base
    if containsList projectPat urlAbs || containsList softwarePat urlAbs then
      some { name := name, url := urlAbs }
    else none
  else none

/-- All candidates pushed by the anchor scan, in page order. -/
def harvestCandidates (base : List Char) (anchors : List Anchor) : List Project :=
  anchors.filterMap (anchorCandidate base)

/-- The dedup Map of source lines 83-86: iterate in order, keep a project
only when its url has not been seen. `Array.from(map.values())` returns
insertion order, i.e. order of first appearance with the first-seen value. -/
def dedupGo (seen : List (List Char)) : List Project → List Project
  | [] => []
  | p :: ps =>
    if p.url ∈ seen then dedupGo seen ps
    else p :: dedupGo (p.url :: seen) ps

def dedupByUrl (ps : List Project) : List Project := dedupGo [] ps

/-- The harvester's response body `projects` for a successfully fetched
gallery page with the given anchors. -/
def harvest (base : List Char) (anchors : List Anchor) : List Project :=
  dedupByUrl (harvestCandidates base anchors)

/-! ### Per-project scoring flow (source lines 128-193)

The per-iteration effects are modelled per project: the outcome of the
project-page fetch (`Except.error` is a transport rejection, carrying the
JS error's message) and the outcome of the model-endpoint fetch inside
geminiCall. Cheerio's title extraction `$("h1, h2").first().text()` is a
platform capability; its raw result is `Page.headingText`. The prompt
string (which only feeds the model) does not influence the modelled
dataflow; see `intendedRubricSnippet` for its truncation artifact. -/

structure Page where
  ok : Bool
  status : Nat
  headingText : List Char

structure ProjEnv where
  fetch : Except (List Char) Page
  genResp : Except (List Char) GenResp

structure ProjectResult where
  name : List Char
  url : List Char
  items : List Js
  total : Rat
  error : Option (List Char)

def untitled : List Char := "Untitled".toList

/-- The message of `new Error(\x60Fetch $\x7bpage.status\x7d\x60)` (source line 140). -/
def fetchFailMsg (status : Nat) : List Char :=
  "Fetch ".toList ++ (toString status).toList

/-- The try block of one loop iteration (source lines 138-181): any stage
may throw; the thrown message is the `Except.error` payload. -/
def tryProject (parse : List Char → Except (List Char) Js)
    (envKey : Option (List Char)) (env : ProjEnv) (p : Project) :
    Except (List Char) ProjectResult :=
  match env.fetch with
  | Except.error e => Except.error e
  | Except.ok page =>
    if page.ok = false then
      Except.error (fetchFailMsg page.status)
    else
      let title := jsOrStr (jsTrim page.headingText) (jsOrStr p.name untitled)
      match env.genResp with
      | Except.error e => Except.error e
      | Except.ok resp =>
        match geminiCall envKey none resp with
        | Except.error e => Except.error e
        | Except.ok raw =>
          match parse (extractJson raw) with
          | Except.error e => Except.error e
          | Except.ok payload =>
            Except.ok { name := title, url := p.url, items := itemsOf payload,
                        total := computeTotal payload, error := none }

/-- One loop iteration with its catch (source lines 137-184): a failure
becomes the zero-score placeholder carrying the error's message. -/
def runProject (parse : List Char → Except (List Char) Js)
    (envKey : Option (List Char)) (pe : Project × ProjEnv) : ProjectResult :=
  match tryProject parse envKey pe.2 pe.1 with
  | Except.ok r => r
  | Except.error e =>
    { name := jsOrStr pe.1.name untitled, url := pe.1.url,
      items := [], total := 0, error := some e }

/-- The whole loop: one result per input project, in input order. -/
def processAll (parse : List Char → Except (List Char) Js)
    (envKey : Option (List Char)) (ps : List (Project × ProjEnv)) :
    List ProjectResult :=
  ps.map (runProject parse envKey)

/-- The comparator `(a,b)=> b.total - a.total` (source line 188) orders `a`
no later than `b` exactly when `b.total ≤ a.total`. -/
def resultLe (a b : ProjectResult) : Bool := decide (b.total ≤ a.total)

/-- `results.sort((a,b)=> b.total - a.total)`: Array.prototype.sort is
required stable, and a stable sort under a consistent comparator is
unique, so any stable sorting algorithm models it; mergeSort is one. -/
def rankResults (rs : List ProjectResult) : List ProjectResult :=
  rs.mergeSort resultLe

/-- The `/api/score` results for a batch: process every project, then rank. -/
def scoreAll (parse : List Char → Except (List Char) Js)
    (envKey : Option (List Char)) (ps : List (Project × ProjEnv)) :
    List ProjectResult :=
  rankResults (processAll parse envKey ps)

/-! ### Prompt truncation (source lines 114 and 170)

The source interpolates `$\x7btext[:15000]\x7d` and `$\x7bdesc[:12000]\x7d`
into the prompts. `text[:15000]` is Python slice syntax, not JavaScript: as
written it is a SyntaxError and the module cannot load. The specification
(its design note 9) records the intent — embed the first 15,000 / 12,000
characters — which in JS is `text.slice(0, 15000)`. The intended
truncations are modelled here so the discrepancy can be stated. -/

/-- The intended rubric-prompt truncation, `text.slice(0, 15000)`. -/
def intendedRubricSnippet (text : List Char) : List Char := text.take 15000

/-- The intended description-prompt truncation, `desc.slice(0, 12000)`. -/
def intendedDescSnippet (desc : List Char) : List Char := desc.take 12000

/-- The rubric flow's decode step (source lines 118-120): parse the
extracted JSON and coerce `criteria`. -/
def parseRubric (parse : List Char → Except (List Char) Js) (raw : List Char) :
    Except (List Char) (List Js) :=
  (parse (extractJson raw)).map criteriaOf

/-! ### Helper lemmas about the fence regex model -/

theorem splitAtTicks_cons_of_ne (c : Char) (l : List Char) (hc : ¬ c = tick)
    (hl : 2 ≤ l.length) :
    splitAtTicks (c :: l) = (splitAtTicks l).map (c :: ·) := by
  match l with
  | a :: b :: rest => simp [splitAtTicks, hc]
  | [] => simp at hl
  | [a] => simp at hl

theorem splitAtTicks_append (post : List Char) :
    ∀ (inner : List Char), tick ∉ inner →
      splitAtTicks (inner ++ tick :: tick :: tick :: post) = some inner := by
  intro inner
  induction inner with
  | nil => intro _; simp [splitAtTicks]
  | cons c cs ih =>
    intro h
    have hc : ¬ c = tick := by simp at h; exact fun hh => h.1 hh.symm
    have hcs : tick ∉ cs := by simp at h; exact h.2
    have hl : 2 ≤ (cs ++ tick :: tick :: tick :: post).length := by
      simp [List.length_append]; omega
    rw [List.cons_append, splitAtTicks_cons_of_ne c _ hc hl, ih hcs]
    rfl

theorem fenceAt_cons_ne (c : Char) (l : List Char) (hc : ¬ c = tick) :
    fenceAt (c :: l) = none := by
  match l with
  | c1 :: c2 :: c3 :: c4 :: c5 :: c6 :: rest => simp [fenceAt, hc]
  | [] => simp [fenceAt]
  | [_] => simp [fenceAt]
  | [_, _] => simp [fenceAt]
  | [_, _, _] => simp [fenceAt]
  | [_, _, _, _] => simp [fenceAt]
  | [_, _, _, _, _] => simp [fenceAt]

theorem findFence_append_of_no_tick (l : List Char) :
    ∀ (pre : List Char), tick ∉ pre → findFence (pre ++ l) = findFence l := by
  intro pre
  induction pre with
  | nil => intro _; rfl
  | cons c cs ih =>
    intro h
    have hc : ¬ c = tick := by simp at h; exact fun hh => h.1 hh.symm
    have hcs : tick ∉ cs := by simp at h; exact h.2
    rw [List.cons_append]
    show findFence (c :: (cs ++ l)) = findFence l
    simp only [findFence, fenceAt_cons_ne c _ hc]
    exact ih hcs

theorem dropWhile_append_of_all {p : Char → Bool} (xs : List Char) :
    ∀ (ws : List Char), (∀ c ∈ ws, p c = true) →
      (ws ++ xs).dropWhile p = xs.dropWhile p := by
  intro ws
  induction ws with
  | nil => intro _; rfl
  | cons c cs ih =>
    intro h
    rw [List.cons_append, List.dropWhile_cons]
    simp only [h c (List.mem_cons_self c cs)]
    exact ih (fun d hd => h d (List.mem_cons_of_mem c hd))

/-- The fence regex matched at a well-formed fence: interior captured, the
leading whitespace stripped by the greedy run. -/
theorem fenceAt_fence (lbl ws inner post : List Char)
    (hlbl : lbl.map Char.toLower = ['j', 's', 'o', 'n'])
    (hws : ∀ c ∈ ws, isJsSpace c = true)
    (hin : tick ∉ inner)
    (hhead : ∀ c, inner.head? = some c → isJsSpace c = false) :
    fenceAt (tick :: tick :: tick :: lbl ++ ws ++ inner ++ tick :: tick :: tick :: post) =
      some inner := by
  match lbl with
  | [] => simp at hlbl
  | [_] => simp at hlbl
  | [_, _] => simp at hlbl
  | [_, _, _] => simp at hlbl
  | _ :: _ :: _ :: _ :: _ :: _ => simp at hlbl
  | [c1, c2, c3, c4] =>
    simp only [List.map_cons, List.map_nil, List.cons.injEq, and_true] at hlbl
    obtain ⟨h1, h2, h3, h4⟩ := hlbl
    show fenceAt (tick :: tick :: tick :: c1 :: c2 :: c3 :: c4 ::
      (ws ++ inner ++ tick :: tick :: tick :: post)) = some inner
    simp only [fenceAt, h1, h2, h3, h4]
    simp only [decide_True, Bool.and_self, if_pos]
    rw [List.append_assoc ws, dropWhile_append_of_all _ ws hws]
    match inner with
    | [] =>
      have hts : isJsSpace tick = false := by decide
      simp only [List.nil_append, List.dropWhile_cons, hts, Bool.false_eq_true,
        if_neg, ite_false]
      simp [splitAtTicks]
    | c :: cs =>
      have hc : isJsSpace c = false := hhead c rfl
      rw [List.cons_append, List.dropWhile_cons]
      simp only [hc]
      simp only [Bool.false_eq_true, if_neg, ite_false]
      exact splitAtTicks_append post (c :: cs) hin

theorem findFence_cons (c : Char) (cs : List Char) :
    findFence (c :: cs) = match fenceAt (c :: cs) with
      | some inner => some inner
      | none => findFence cs := by
  rw [findFence.eq_def]

theorem jsIndexOf_eq_none_iff (t : Char) :
    ∀ (cs : List Char), jsIndexOf cs t = none ↔ t ∉ cs := by
  intro cs
  induction cs with
  | nil => simp [jsIndexOf]
  | cons c rest ih =>
    rw [jsIndexOf]
    by_cases hc : c = t
    · rw [if_pos hc]
      simp [hc]
    · rw [if_neg hc]
      simp only [Option.map_eq_none', ih, List.mem_cons, not_or]
      constructor
      · intro h
        exact ⟨fun hm => hc hm.symm, h⟩
      · intro h
        exact h.2

theorem jsLastIndexOf_eq_none_iff (t : Char) :
    ∀ (cs : List Char), jsLastIndexOf cs t = none ↔ t ∉ cs := by
  intro cs
  induction cs with
  | nil => simp [jsLastIndexOf]
  | cons c rest ih =>
    rw [jsLastIndexOf]
    cases hrest : jsLastIndexOf rest t with
    | some k =>
      have ht : t ∈ rest := by
        by_contra hmem
        rw [ih.mpr hmem] at hrest
        cases hrest
      simp [ht]
    | none =>
      have hrest' : t ∉ rest := ih.mp hrest
      by_cases hc : c = t
      · rw [if_pos hc]
        simp [hc]
      · rw [if_neg hc]
        simp only [List.mem_cons, not_or]
        constructor
        · intro _
          exact ⟨fun hm => hc hm.symm, hrest'⟩
        · intro _
          trivial

theorem jsIndexOf_spec (t : Char) :
    ∀ (cs : List Char) (i : Nat), jsIndexOf cs t = some i →
      cs[i]? = some t ∧ ∀ j, j < i → cs[j]? ≠ some t := by
  intro cs
  induction cs with
  | nil => intro i h; simp [jsIndexOf] at h
  | cons c rest ih =>
    intro i h
    rw [jsIndexOf] at h
    by_cases hc : c = t
    · rw [if_pos hc] at h
      simp only [Option.some.injEq] at h
      subst h
      exact ⟨by simp [hc], fun j hj => by omega⟩
    · rw [if_neg hc] at h
      simp only [Option.map_eq_some'] at h
      obtain ⟨k, hk, rfl⟩ := h
      obtain ⟨h1, h2⟩ := ih k hk
      refine ⟨by simpa using h1, ?_⟩
      intro j hj
      match j with
      | 0 => simpa using hc
      | j + 1 =>
        have := h2 j (by omega)
        simpa using this

theorem jsLastIndexOf_spec (t : Char) :
    ∀ (cs : List Char) (i : Nat), jsLastIndexOf cs t = some i →
      cs[i]? = some t ∧ ∀ j, i < j → cs[j]? ≠ some t := by
  intro cs
  induction cs with
  | nil => intro i h; simp [jsLastIndexOf] at h
  | cons c rest ih =>
    intro i h
    rw [jsLastIndexOf] at h
    cases hrest : jsLastIndexOf rest t with
    | some k =>
      rw [hrest] at h
      simp only [Option.some.injEq] at h
      subst h
      obtain ⟨h1, h2⟩ := ih k hrest
      refine ⟨by simpa using h1, ?_⟩
      intro j hj
      match j with
      | 0 => omega
      | j + 1 =>
        have := h2 j (by omega)
        simpa using this
    | none =>
      rw [hrest] at h
      by_cases hc : c = t
      · rw [if_pos hc] at h
        simp only [Option.some.injEq] at h
        subst h
        refine ⟨by simp [hc], ?_⟩
        intro j hj
        match j with
        | 0 => omega
        | j + 1 =>
          intro hmem
          simp only [List.getElem?_cons_succ] at hmem
          have ht : t ∈ rest := List.getElem?_mem hmem
          exact (jsLastIndexOf_eq_none_iff t rest).mp hrest ht
      · rw [if_neg hc] at h
        cases h

/-- C2: `extractJson` selects its candidate substring with this
precedence, first match wins: (1) the interior of the first fenced block
labeled json (case-insensitive), the whitespace after the label consumed
by the fence, not captured; (2) with no fence, the substring from the
first `\x7b` to the last `\x7d` inclusive (`slice(a, b+1)`), where the
indices are exactly the first and last occurrences; (3) with no fence and
one of the braces absent, the raw text unchanged. -/
theorem c2_extractJson_precedence :
    (∀ (text inner : List Char), findFence text = some inner → extractJson text = inner)
  ∧ (∀ (pre lbl ws inner post : List Char), tick ∉ pre →
      lbl.map Char.toLower = ['j', 's', 'o', 'n'] →
      (∀ c ∈ ws, isJsSpace c = true) →
      tick ∉ inner →
      (∀ c, inner.head? = some c → isJsSpace c = false) →
      extractJson
        (pre ++ tick :: tick :: tick :: lbl ++ ws ++ inner ++ tick :: tick :: tick :: post)
        = inner)
  ∧ (∀ (text : List Char) (a b : Nat), findFence text = none →
      jsIndexOf text '{' = some a → jsLastIndexOf text '}' = some b →
      extractJson text = (text.take (b + 1)).drop a ∧
      text[a]? = some '{' ∧ (∀ j, j < a → text[j]? ≠ some '{') ∧
      text[b]? = some '}' ∧ (∀ j, b < j → text[j]? ≠ some '}'))
  ∧ (∀ text : List Char, findFence text = none → ('{' ∉ text ∨ '}' ∉ text) →
      extractJson text = text) := by
  refine ⟨?_, ?_, ?_, ?_⟩
  · intro text inner hf
    rw [extractJson, hf]
  · intro pre lbl ws inner post hpre hlbl hws hin hhead
    have hfence := fenceAt_fence lbl ws inner post hlbl hws hin hhead
    have hfind : findFence
        (pre ++ tick :: tick :: tick :: lbl ++ ws ++ inner ++ tick :: tick :: tick :: post)
        = some inner := by
      have hassoc : pre ++ tick :: tick :: tick :: lbl ++ ws ++ inner ++
          tick :: tick :: tick :: post =
          pre ++ (tick :: tick :: tick :: lbl ++ ws ++ inner ++
            tick :: tick :: tick :: post) := by
        simp [List.append_assoc]
      rw [hassoc, findFence_append_of_no_tick _ pre hpre]
      simp only [List.cons_append] at hfence ⊢
      rw [findFence_cons, hfence]
    rw [extractJson, hfind]
  · intro text a b hf hia hib
    obtain ⟨ha1, ha2⟩ := jsIndexOf_spec '{' text a hia
    obtain ⟨hb1, hb2⟩ := jsLastIndexOf_spec '}' text b hib
    refine ⟨?_, ha1, ha2, hb1, hb2⟩
    rw [extractJson, hf, hia, hib]
  · intro text hf hbr
    rw [extractJson, hf]
    rcases hbr with hbr | hbr
    · rw [(jsIndexOf_eq_none_iff '{' text).mpr hbr]
    · rw [(jsLastIndexOf_eq_none_iff '}' text).mpr hbr]
      cases jsIndexOf text '{' <;> rfl

theorem c2_extractJson_precedence_witness :
    extractJson ("reply: ".toList ++ tick :: tick :: tick :: "JSON".toList ++
        " \n".toList ++ "\x7b\"a\": 1\x7d".toList ++ tick :: tick :: tick :: " bye".toList)
      = "\x7b\"a\": 1\x7d".toList
  ∧ extractJson "x \x7b1,2\x7d y".toList = "\x7b1,2\x7d".toList := by
  constructor
  · exact c2_extractJson_precedence.2.1 "reply: ".toList "JSON".toList " \n".toList
      "\x7b\"a\": 1\x7d".toList " bye".toList (by decide) (by decide) (by decide)
      (by decide) (by decide)
  · have h := c2_extractJson_precedence.2.2.1 "x \x7b1,2\x7d y".toList 2 6
      (by decide) (by decide) (by decide)
    exact h.1.trans (by decide)

/-- C10: the raw-text fallback fires only when there is no fence and one
of the braces is absent; a fence-free text containing both braces always
goes through the slice, and when its last `\x7d` precedes its first
`\x7b` the slice is empty — in particular on `\x7dx\x7b` the selected
substring is the empty string, which no JSON parse accepts. -/
theorem c10_reversed_braces :
    extractJson ('}' :: 'x' :: '{' :: []) = []
  ∧ (∀ (text : List Char) (a b : Nat), findFence text = none →
      jsIndexOf text '{' = some a → jsLastIndexOf text '}' = some b →
      extractJson text = (text.take (b + 1)).drop a)
  ∧ (∀ (text : List Char) (a b : Nat), findFence text = none →
      jsIndexOf text '{' = some a → jsLastIndexOf text '}' = some b →
      b < a → extractJson text = []) := by
  have hslice : ∀ (text : List Char) (a b : Nat), findFence text = none →
      jsIndexOf text '{' = some a → jsLastIndexOf text '}' = some b →
      extractJson text = (text.take (b + 1)).drop a := by
    intro text a b hf hia hib
    rw [extractJson, hf, hia, hib]
  refine ⟨by decide, hslice, ?_⟩
  intro text a b hf hia hib hab
  rw [hslice text a b hf hia hib]
  apply List.drop_eq_nil_of_le
  calc (text.take (b + 1)).length ≤ b + 1 := by simp
    _ ≤ a := by omega

theorem c10_reversed_braces_witness :
    extractJson "\x7dx\x7b".toList = [] := by
  have h := c10_reversed_braces.2.2 "\x7dx\x7b".toList 2 0
    (by decide) (by decide) (by decide) (by decide)
  exact h

/-! ### C1: per-project fault isolation in the scoring loop -/

/-- C1: the loop yields exactly one result per input project (also after
ranking); each slot depends only on its own project's processing; a slot
whose processing failed carries total 0, no items, and the failure's
message in its error field, while every slot whose processing succeeded
carries its normal result. -/
theorem c1_error_isolation (parse : List Char → Except (List Char) Js)
    (envKey : Option (List Char)) (ps : List (Project × ProjEnv)) :
    (processAll parse envKey ps).length = ps.length
  ∧ (scoreAll parse envKey ps).length = ps.length
  ∧ (∀ i, i < ps.length →
      (processAll parse envKey ps)[i]? = (ps[i]?).map (runProject parse envKey))
  ∧ (∀ i (h : i < ps.length) (e : List Char),
      tryProject parse envKey (ps[i]).2 (ps[i]).1 = Except.error e →
      (processAll parse envKey ps)[i]? =
        some { name := jsOrStr (ps[i]).1.name untitled, url := (ps[i]).1.url,
               items := [], total := 0, error := some e })
  ∧ (∀ i (h : i < ps.length) (r : ProjectResult),
      tryProject parse envKey (ps[i]).2 (ps[i]).1 = Except.ok r →
      (processAll parse envKey ps)[i]? = some r) := by
  refine ⟨?_, ?_, ?_, ?_, ?_⟩
  · simp [processAll]
  · simp [scoreAll, rankResults, processAll]
  · intro i _
    simp [processAll]
  · intro i h e he
    simp only [processAll, List.getElem?_map, List.getElem?_eq_getElem h,
      Option.map_some']
    rw [runProject, he]
  · intro i h r hr
    simp only [processAll, List.getElem?_map, List.getElem?_eq_getElem h,
      Option.map_some']
    rw [runProject, hr]

def w1Parse : List Char → Except (List Char) Js :=
  fun _ => Except.ok (Js.obj [(totalKey, Js.num 55)])

def w1Key : Option (List Char) := some ['k']

def w1GenBody : Js :=
  Js.obj [(candidatesKey, Js.arr [Js.obj [(contentKey,
    Js.obj [(partsKey, Js.arr [Js.obj [(textKey, Js.str ['x'])]])])]])]

def w1Good : Project × ProjEnv :=
  ({ name := ['G'], url := "https://x/project/1".toList },
   { fetch := Except.ok { ok := true, status := 200, headingText := "Alpha".toList },
     genResp := Except.ok { ok := true, status := 200, bodyText := [], body := w1GenBody } })

def w1Bad : Project × ProjEnv :=
  ({ name := ['B'], url := "https://x/project/2".toList },
   { fetch := Except.error "boom".toList, genResp := Except.error [] })

theorem c1_error_isolation_witness :
    (processAll w1Parse w1Key [w1Good, w1Bad])[1]? =
      some { name := ['B'], url := "https://x/project/2".toList,
             items := [], total := 0, error := some "boom".toList }
  ∧ (processAll w1Parse w1Key [w1Good, w1Bad])[0]? =
      some { name := "Alpha".toList, url := "https://x/project/1".toList,
             items := [], total := 55, error := none }
  ∧ (processAll w1Parse w1Key [w1Good, w1Bad]).length = 2 := by
  refine ⟨?_, ?_, ?_⟩
  · have h := (c1_error_isolation w1Parse w1Key [w1Good, w1Bad]).2.2.2.1 1
      (by decide) "boom".toList rfl
    exact h.trans (by rfl)
  · exact (c1_error_isolation w1Parse w1Key [w1Good, w1Bad]).2.2.2.2 0 (by decide)
      { name := "Alpha".toList, url := "https://x/project/1".toList,
        items := [], total := 55, error := none } rfl
  · exact (c1_error_isolation w1Parse w1Key [w1Good, w1Bad]).1

/-! ### C3: local recomputation of a falsy total -/

/-- C3: when every stage of a project's processing succeeds but the
decoded payload's `total` field is falsy (absent, non-numeric, or the
number 0), the result's total is recomputed as the sum over the decoded
items of weight times score. -/
theorem c3_total_recompute (parse : List Char → Except (List Char) Js)
    (envKey : Option (List Char)) (env : ProjEnv) (p : Project)
    (page : Page) (resp : GenResp) (raw : List Char) (payload : Js)
    (hf : env.fetch = Except.ok page) (hok : page.ok = true)
    (hg : env.genResp = Except.ok resp)
    (hcall : geminiCall envKey none resp = Except.ok raw)
    (hparse : parse (extractJson raw) = Except.ok payload)
    (htotal : totalField payload = 0) :
    tryProject parse envKey env p =
      Except.ok { name := jsOrStr (jsTrim page.headingText) (jsOrStr p.name untitled),
                  url := p.url, items := itemsOf payload,
                  total := sumItems (itemsOf payload), error := none } := by
  rw [tryProject.eq_def]
  simp [hf, hg, hcall, hparse, hok, computeTotal, htotal]

def w3Payload : Js :=
  Js.obj [(itemsKey, Js.arr
    [Js.obj [(weightKey, Js.num (6 / 10)), (scoreKey, Js.num 80)],
     Js.obj [(weightKey, Js.num (4 / 10)), (scoreKey, Js.num 50)]])]

def w3Resp : GenResp :=
  { ok := true, status := 200, bodyText := [], body := w1GenBody }

def w3Env : ProjEnv :=
  { fetch := Except.ok { ok := true, status := 200, headingText := ['T'] },
    genResp := Except.ok w3Resp }

def w3Parse : List Char → Except (List Char) Js := fun _ => Except.ok w3Payload

theorem c3_total_recompute_witness :
    tryProject w3Parse w1Key w3Env { name := ['P'], url := ['u'] } =
      Except.ok { name := ['T'], url := ['u'], items := itemsOf w3Payload,
                  total := 68, error := none }
  ∧ sumItems (itemsOf w3Payload) = 68 := by
  have h68 : sumItems (itemsOf w3Payload) = 68 := by
    show (0 + (6 / 10 : Rat) * 80 + (4 / 10 : Rat) * 50) = 68
    norm_num
  constructor
  · have h := c3_total_recompute w3Parse w1Key w3Env { name := ['P'], url := ['u'] }
      { ok := true, status := 200, headingText := ['T'] } w3Resp ['x'] w3Payload
      rfl rfl rfl rfl rfl rfl
    rw [h, h68]
    rfl
  · exact h68

/-! ### C7: defensive coercion of untrusted decoded fields -/

/-- C7: a missing or non-array `items`/`criteria` field coerces to the
empty list, and a non-numeric (NaN-coercing) weight or score contributes
0 to the recomputed total instead of propagating NaN. -/
theorem c7_defensive_coercions :
    (∀ payload : Js, (∀ xs, getField payload itemsKey ≠ some (Js.arr xs)) →
      itemsOf payload = [])
  ∧ (∀ parsed : Js, (∀ xs, getField parsed criteriaKey ≠ some (Js.arr xs)) →
      criteriaOf parsed = [])
  ∧ (∀ parse raw (payload : Js), parse (extractJson raw) = Except.ok payload →
      parseRubric parse raw = Except.ok (criteriaOf payload))
  ∧ (∀ v : Option Js, jsToNumber v = none → numOr0 v = 0)
  ∧ (∀ it : Js, jsToNumber (getField it weightKey) = none →
      itemTerm it = 0)
  ∧ (∀ it : Js, jsToNumber (getField it scoreKey) = none →
      itemTerm it = 0) := by
  refine ⟨?_, ?_, ?_, ?_, ?_, ?_⟩
  · intro payload h
    rw [itemsOf.eq_def]
    split
    · next xs heq => exact absurd heq (h xs)
    · rfl
  · intro parsed h
    rw [criteriaOf.eq_def]
    split
    · next xs heq => exact absurd heq (h xs)
    · rfl
  · intro parse raw payload h
    rw [parseRubric, h]
    rfl
  · intro v h
    simp only [numOr0, h]
  · intro it h
    simp only [itemTerm, numOr0, h, zero_mul]
  · intro it h
    simp only [itemTerm, numOr0, h, mul_zero]

theorem c7_defensive_coercions_witness :
    itemsOf (Js.obj [(itemsKey, Js.str "oops".toList)]) = []
  ∧ criteriaOf (Js.obj []) = []
  ∧ numOr0 (some (Js.obj [])) = 0
  ∧ itemTerm (Js.obj [(weightKey, Js.str "abc".toList), (scoreKey, Js.num 80)]) = 0 := by
  refine ⟨?_, ?_, ?_, ?_⟩
  · exact c7_defensive_coercions.1 _ (by intro xs h; cases h)
  · exact c7_defensive_coercions.2.1 _ (by intro xs h; cases h)
  · exact c7_defensive_coercions.2.2.2.1 _ rfl
  · exact c7_defensive_coercions.2.2.2.2.1 _ rfl

/-! ### C8: the generation client's failure conditions -/

/-- C8: given a delivered response, `geminiCall` fails exactly when the
credential is falsy, or the status is not success, or the reply's
extracted text trims to nothing — each with its own distinct message (the
upstream message embedding the status code and the body truncated to at
most 400 characters) — and otherwise returns the trimmed, non-empty text. -/
theorem c8_geminiCall_failures (envKey apiKey : Option (List Char)) (resp : GenResp) :
    ((jsOrOpt apiKey envKey = none ∨ jsOrOpt apiKey envKey = some []) →
      geminiCall envKey apiKey resp = Except.error missingKeyMsg)
  ∧ (∀ k, jsOrOpt apiKey envKey = some k → k ≠ [] → resp.ok = false →
      geminiCall envKey apiKey resp =
        Except.error (geminiErrMsg resp.status resp.bodyText))
  ∧ (∀ k, jsOrOpt apiKey envKey = some k → k ≠ [] → resp.ok = true →
      jsTrim (extractGeminiText resp.body) = [] →
      geminiCall envKey apiKey resp = Except.error emptyRespMsg)
  ∧ (∀ k, jsOrOpt apiKey envKey = some k → k ≠ [] → resp.ok = true →
      jsTrim (extractGeminiText resp.body) ≠ [] →
      geminiCall envKey apiKey resp =
        Except.ok (jsTrim (extractGeminiText resp.body)))
  ∧ ((∃ e, geminiCall envKey apiKey resp = Except.error e) ↔
      (jsOrOpt apiKey envKey = none ∨ jsOrOpt apiKey envKey = some [] ∨
       resp.ok = false ∨ jsTrim (extractGeminiText resp.body) = []))
  ∧ (∀ st body, geminiErrMsg st body =
        "Gemini error ".toList ++ (toString st).toList ++ ": ".toList ++ body.take 400
      ∧ (body.take 400).length ≤ 400)
  ∧ (∀ st body, geminiErrMsg st body ≠ missingKeyMsg ∧
      geminiErrMsg st body ≠ emptyRespMsg ∧ missingKeyMsg ≠ emptyRespMsg) := by
  have herrshape : ∀ (st : Nat) (body : List Char),
      (geminiErrMsg st body).head? = some 'G' := by
    intro st body
    rfl
  refine ⟨?_, ?_, ?_, ?_, ?_, ?_, ?_⟩
  · intro h
    rcases h with h | h <;>
      simp [geminiCall, h]
  · intro k hk hne hok
    rw [geminiCall, hk]
    simp only [List.isEmpty_eq_true, hne, if_neg, ite_false, hok]
    rfl
  · intro k hk hne hok hempty
    rw [geminiCall, hk]
    simp [List.isEmpty_eq_true, hne, hok, hempty]
  · intro k hk hne hok hne2
    rw [geminiCall, hk]
    simp [List.isEmpty_eq_true, hne, hok, hne2]
  · constructor
    · rintro ⟨e, he⟩
      by_contra hcon
      push_neg at hcon
      obtain ⟨h1, h2, h3, h4⟩ := hcon
      cases hk : jsOrOpt apiKey envKey with
      | none => exact h1 hk
      | some k =>
        have hne : k ≠ [] := fun hnil => h2 (hnil ▸ hk)
        have hok : resp.ok = true := by
          cases hc : resp.ok
          · exact absurd hc h3
          · rfl
        rw [geminiCall, hk] at he
        simp only [List.isEmpty_eq_true, hne, if_neg, ite_false] at he
        simp [hok, h4] at he
    · intro h
      rcases h with h | h | h | h
      · exact ⟨missingKeyMsg, by simp [geminiCall, h]⟩
      · exact ⟨missingKeyMsg, by simp [geminiCall, h]⟩
      · cases hk : jsOrOpt apiKey envKey with
        | none => exact ⟨missingKeyMsg, by simp [geminiCall, hk]⟩
        | some k =>
          by_cases hke : k = []
          · subst hke
            exact ⟨missingKeyMsg, by simp [geminiCall, hk]⟩
          · refine ⟨geminiErrMsg resp.status resp.bodyText, ?_⟩
            rw [geminiCall, hk]
            simp [List.isEmpty_eq_true, hke, h]
      · cases hk : jsOrOpt apiKey envKey with
        | none => exact ⟨missingKeyMsg, by simp [geminiCall, hk]⟩
        | some k =>
          by_cases hke : k = []
          · subst hke
            exact ⟨missingKeyMsg, by simp [geminiCall, hk]⟩
          · by_cases hok : resp.ok = true
            · refine ⟨emptyRespMsg, ?_⟩
              rw [geminiCall, hk]
              simp [List.isEmpty_eq_true, hke, hok, h]
            · refine ⟨geminiErrMsg resp.status resp.bodyText, ?_⟩
              rw [geminiCall, hk]
              simp only [List.isEmpty_eq_true, hke, if_neg, ite_false]
              simp only [Bool.not_eq_true] at hok
              simp [hok]
  · intro st body
    exact ⟨rfl, by simp [List.length_take]⟩
  · intro st body
    refine ⟨?_, ?_, by decide⟩
    · intro h
      have := congrArg List.head? h
      rw [herrshape st body] at this
      cases this
    · intro h
      have := congrArg List.head? h
      rw [herrshape st body] at this
      cases this

theorem c8_geminiCall_failures_witness :
    geminiCall none none { ok := true, status := 200, bodyText := [], body := Js.null }
      = Except.error missingKeyMsg
  ∧ geminiCall (some "k".toList) none
      { ok := false, status := 503, bodyText := "bad gateway".toList, body := Js.null }
      = Except.error (geminiErrMsg 503 "bad gateway".toList)
  ∧ geminiCall (some "k".toList) none
      { ok := true, status := 200, bodyText := [], body := Js.obj [] }
      = Except.error emptyRespMsg
  ∧ geminiCall (some "k".toList) none
      { ok := true, status := 200, bodyText := [], body := w1GenBody }
      = Except.ok ['x'] := by
  refine ⟨?_, ?_, ?_, ?_⟩
  · exact (c8_geminiCall_failures none none _).1 (Or.inl rfl)
  · exact (c8_geminiCall_failures (some "k".toList) none _).2.1 "k".toList rfl
      (by decide) rfl
  · exact (c8_geminiCall_failures (some "k".toList) none _).2.2.1 "k".toList rfl
      (by decide) rfl rfl
  · have h := (c8_geminiCall_failures (some "k".toList) none
      { ok := true, status := 200, bodyText := [], body := w1GenBody }).2.2.2.1
      "k".toList rfl (by decide) rfl (by decide)
    exact h.trans (by rfl)

/-! ### C9: the prompt truncation artifact -/

/-- C9: the intended truncations embed exactly the first 15,000 and
12,000 characters; the source as preserved spells them with Python slice
syntax, which is not executable JavaScript (see the section comment at
`intendedRubricSnippet`). -/
theorem c9_truncation_lengths :
    intendedRubricSnippet (List.replicate 15001 'a') = List.replicate 15000 'a'
  ∧ intendedDescSnippet (List.replicate 12001 'b') = List.replicate 12000 'b'
  ∧ (∀ text : List Char, (intendedRubricSnippet text).length = min 15000 text.length)
  ∧ (∀ desc : List Char, (intendedDescSnippet desc).length = min 12000 desc.length) := by
  refine ⟨?_, ?_, ?_, ?_⟩
  · rw [intendedRubricSnippet, List.take_replicate]
    norm_num
  · rw [intendedDescSnippet, List.take_replicate]
    norm_num
  · intro text
    simp [intendedRubricSnippet]
  · intro desc
    simp [intendedDescSnippet]

/-! ### C5: the harvester's anchor filter -/

/-- The acceptance condition exactly as the claim words it: the href
matches the path pattern case-insensitively and the trimmed visible text
is longer than 2 characters. -/
def claimAccepts (a : Anchor) : Bool :=
  hrefMatchesPat a.href && decide ((jsTrim a.text).length > 2)

/-- The acceptance condition the code implements: the claim's condition
plus the inner guard that the resolved absolute URL contains "/project/"
or "/software/" case-sensitively (source line 76). -/
def codeAccepts (base : List Char) (a : Anchor) : Bool :=
  hrefMatchesPat a.href && decide ((jsTrim a.text).length > 2) &&
  (containsList projectPat (absoluteUrl a.href base) ||
   containsList softwarePat (absoluteUrl a.href base))

/-- C5 is false as stated: an anchor whose href matches the pattern only
with upper-case letters satisfies the claim's acceptance condition, yet
the harvester drops it at the inner case-sensitive guard and returns no
project for it. -/
theorem c5_counterexample :
    claimAccepts { href := "/PROJECT/42".toList, text := "Fooo".toList } = true
  ∧ harvestCandidates "https://devpost.com".toList
      [{ href := "/PROJECT/42".toList, text := "Fooo".toList }] = []
  ∧ harvest "https://devpost.com".toList
      [{ href := "/PROJECT/42".toList, text := "Fooo".toList }] = [] := by
  refine ⟨by decide, rfl, rfl⟩

theorem anchorCandidate_eq (base : List Char) (a : Anchor) :
    anchorCandidate base a = if codeAccepts base a then
      some { name := jsTrim a.text, url := absoluteUrl a.href base } else none := by
  cases h1 : hrefMatchesPat a.href && decide ((jsTrim a.text).length > 2) with
  | false => simp [anchorCandidate, codeAccepts, h1]
  | true =>
    cases h2 : containsList projectPat (absoluteUrl a.href base) ||
        containsList softwarePat (absoluteUrl a.href base) with
    | false => simp [anchorCandidate, codeAccepts, h1, h2]
    | true => simp [anchorCandidate, codeAccepts, h1, h2]

/-- C5 amended: an anchor is accepted as a candidate if and only if its
href matches the path pattern /project/ or /software/ case-insensitively,
its trimmed visible text is longer than 2 characters, AND its resolved
absolute URL contains "/project/" or "/software/" case-sensitively; the
claim's concrete example is unchanged (the /about anchor is excluded,
"Foo" is kept with its URL resolved against the page). -/
theorem c5_anchor_filter_amended :
    (∀ (base : List Char) (anchors : List Anchor),
      harvestCandidates base anchors =
        (anchors.filter (codeAccepts base)).map
          (fun a => { name := jsTrim a.text, url := absoluteUrl a.href base }))
  ∧ (∀ (base : List Char) (a : Anchor),
      codeAccepts base a = (claimAccepts a &&
        (containsList projectPat (absoluteUrl a.href base) ||
         containsList softwarePat (absoluteUrl a.href base))))
  ∧ harvest "https://devpost.com".toList
      [{ href := "/project/42".toList, text := "Foo".toList },
       { href := "/about".toList, text := "Team".toList }] =
      [{ name := "Foo".toList, url := "https://devpost.com/project/42".toList }] := by
  refine ⟨?_, ?_, rfl⟩
  · intro base anchors
    induction anchors with
    | nil => rfl
    | cons a rest ih =>
      simp only [harvestCandidates, List.filterMap_cons] at ih ⊢
      rw [anchorCandidate_eq, List.filter_cons]
      cases h : codeAccepts base a with
      | false => simpa [h] using ih
      | true => simpa [h] using ih
  · intro base a
    rw [codeAccepts, claimAccepts]

/-! ### C6: dedup by final absolute URL -/

theorem dedupGo_sublist : ∀ (l : List Project) (seen : List (List Char)),
    List.Sublist (dedupGo seen l) l := by
  intro l
  induction l with
  | nil => intro seen; exact List.Sublist.refl []
  | cons p ps ih =>
    intro seen
    rw [dedupGo]
    by_cases h : p.url ∈ seen
    · rw [if_pos h]
      exact (ih seen).cons p
    · rw [if_neg h]
      exact (ih (p.url :: seen)).cons₂ p

theorem dedupGo_countP_of_mem (u : List Char) :
    ∀ (l : List Project) (seen : List (List Char)), u ∈ seen →
      (dedupGo seen l).countP (fun p => decide (p.url = u)) = 0 := by
  intro l
  induction l with
  | nil => intro seen _; rfl
  | cons p ps ih =>
    intro seen hu
    rw [dedupGo]
    by_cases h : p.url ∈ seen
    · rw [if_pos h]
      exact ih seen hu
    · rw [if_neg h]
      have hne : ¬ p.url = u := fun he => h (he ▸ hu)
      rw [List.countP_cons_of_neg _ _ (by simpa using hne)]
      exact ih (p.url :: seen) (List.mem_cons_of_mem _ hu)

theorem dedupGo_countP_of_not_mem (u : List Char) :
    ∀ (l : List Project) (seen : List (List Char)), u ∉ seen →
      (dedupGo seen l).countP (fun p => decide (p.url = u)) =
        if l.countP (fun p => decide (p.url = u)) = 0 then 0 else 1 := by
  intro l
  induction l with
  | nil => intro seen _; rfl
  | cons p ps ih =>
    intro seen hu
    rw [dedupGo]
    by_cases h : p.url ∈ seen
    · rw [if_pos h]
      have hne : ¬ p.url = u := fun he => hu (he ▸ h)
      rw [List.countP_cons_of_neg _ _ (by simpa using hne)]
      exact ih seen hu
    · rw [if_neg h]
      by_cases he : p.url = u
      · rw [List.countP_cons_of_pos _ _ (by simpa using he)]
        rw [List.countP_cons_of_pos _ _ (by simpa using he)]
        rw [dedupGo_countP_of_mem u ps (p.url :: seen) (by simp [he])]
        simp
      · rw [List.countP_cons_of_neg _ _ (by simpa using he)]
        rw [List.countP_cons_of_neg _ _ (by simpa using he)]
        exact ih (p.url :: seen)
          (by simp only [List.mem_cons, not_or]; exact ⟨fun hh => he hh.symm, hu⟩)

theorem dedupGo_find? (u : List Char) :
    ∀ (l : List Project) (seen : List (List Char)), u ∉ seen →
      (dedupGo seen l).find? (fun p => decide (p.url = u)) =
        l.find? (fun p => decide (p.url = u)) := by
  intro l
  induction l with
  | nil => intro seen _; rfl
  | cons p ps ih =>
    intro seen hu
    rw [dedupGo]
    by_cases h : p.url ∈ seen
    · rw [if_pos h]
      have hne : ¬ p.url = u := fun he => hu (he ▸ h)
      rw [List.find?_cons_of_neg _ (by simpa using hne)]
      exact ih seen hu
    · rw [if_neg h]
      by_cases he : p.url = u
      · rw [List.find?_cons_of_pos _ (by simpa using he),
          List.find?_cons_of_pos _ (by simpa using he)]
      · rw [List.find?_cons_of_neg _ (by simpa using he),
          List.find?_cons_of_neg _ (by simpa using he)]
        exact ih (p.url :: seen)
          (by simp only [List.mem_cons, not_or]; exact ⟨fun hh => he hh.symm, hu⟩)

/-- C6: the harvester's output is the candidate list deduplicated by
final absolute URL: a sublist of the candidates (order of first
appearance preserved), with exactly one project per URL that occurs, and
for each URL the kept project is the first-seen one (so the first-seen
name wins). -/
theorem c6_dedup_by_url :
    (∀ base anchors, harvest base anchors = dedupByUrl (harvestCandidates base anchors))
  ∧ (∀ l : List Project, List.Sublist (dedupByUrl l) l)
  ∧ (∀ (l : List Project) (u : List Char),
      (dedupByUrl l).countP (fun p => decide (p.url = u)) =
        if l.countP (fun p => decide (p.url = u)) = 0 then 0 else 1)
  ∧ (∀ (l : List Project) (u : List Char),
      (dedupByUrl l).find? (fun p => decide (p.url = u)) =
        l.find? (fun p => decide (p.url = u)))
  ∧ harvest "https://devpost.com".toList
      [{ href := "/project/9".toList, text := "First".toList },
       { href := "https://devpost.com/project/9".toList, text := "Second".toList }] =
      [{ name := "First".toList, url := "https://devpost.com/project/9".toList }] := by
  refine ⟨fun _ _ => rfl, ?_, ?_, ?_, rfl⟩
  · intro l
    exact dedupGo_sublist l []
  · intro l u
    exact dedupGo_countP_of_not_mem u l [] (List.not_mem_nil u)
  · intro l u
    exact dedupGo_find? u l [] (List.not_mem_nil u)

/-! ### C4: ranking is a stable descending sort by total -/

theorem resultLe_trans : ∀ (a b c : ProjectResult),
    resultLe a b → resultLe b c → resultLe a c := by
  intro a b c hab hbc
  simp only [resultLe, decide_eq_true_eq] at *
  exact le_trans hbc hab

theorem resultLe_total : ∀ (a b : ProjectResult), resultLe a b || resultLe b a := by
  intro a b
  simp only [resultLe]
  rcases le_total a.total b.total with h | h <;> simp [h]

/-- A result list fixed up to its totals, used for the claim's concrete
ranking example. -/
def resTot (q : Rat) : ProjectResult :=
  { name := [], url := [], items := [], total := q, error := none }

/-- C4: the ranked output is a permutation of the processed results,
sorted by total in descending order; results with equal totals keep their
relative input order (the elements with any fixed total filter out
unchanged); the batch endpoint ranks exactly the processed results; and
on totals [40, 90, 70] the output totals are [90, 70, 40]. -/
theorem c4_rank_sorted_stable (rs : List ProjectResult) :
    (rankResults rs).Pairwise (fun a b => b.total ≤ a.total)
  ∧ (rankResults rs).Perm rs
  ∧ (∀ q : Rat, (rankResults rs).filter (fun r => decide (r.total = q)) =
      rs.filter (fun r => decide (r.total = q)))
  ∧ (∀ parse envKey ps, scoreAll parse envKey ps = rankResults (processAll parse envKey ps))
  ∧ (rankResults [resTot 40, resTot 90, resTot 70]).map ProjectResult.total
      = [90, 70, 40] := by
  refine ⟨?_, ?_, ?_, fun _ _ _ => rfl, ?_⟩
  · have h := List.sorted_mergeSort resultLe_trans resultLe_total rs
    exact h.imp (fun hab => by simpa [resultLe] using hab)
  · exact List.mergeSort_perm rs resultLe
  · intro q
    have hc : (rs.filter (fun r => decide (r.total = q))).Pairwise
        (fun a b => resultLe a b) := by
      apply List.pairwise_of_forall_mem_list
      intro a ha b hb
      have ha' := (List.mem_filter.mp ha).2
      have hb' := (List.mem_filter.mp hb).2
      simp only [decide_eq_true_eq] at ha' hb'
      simp [resultLe, ha', hb']
    have hsub : List.Sublist (rs.filter (fun r => decide (r.total = q)))
        (rs.mergeSort resultLe) :=
      List.sublist_mergeSort resultLe_trans resultLe_total hc (List.filter_sublist rs)
    have hperm : ((rs.mergeSort resultLe).filter (fun r => decide (r.total = q))).Perm
        (rs.filter (fun r => decide (r.total = q))) :=
      (List.mergeSort_perm rs resultLe).filter _
    have hff : ((rs.filter (fun r => decide (r.total = q))).filter
        (fun r => decide (r.total = q))) = rs.filter (fun r => decide (r.total = q)) :=
      List.filter_eq_self.mpr (fun a ha => (List.mem_filter.mp ha).2)
    have hsub2 := hsub.filter (fun r => decide (r.total = q))
    rw [hff] at hsub2
    exact (hsub2.eq_of_length (hperm.length_eq).symm).symm
  · simp [rankResults, List.mergeSort, List.merge, resultLe, resTot]
    norm_num [List.merge, resultLe]

end Judgify
